import Mathlib

/-!
# ROSETTA — verification of the extraction/extension behaviour

Shallow embedding of the ROSETTA repository:

* the browser-extension content script (`src/extension/content.js`):
  field-name normalisation, form filling;
* the OCR normalisation/consolidation pipeline.  The Python implementation
  (`backend/ocr/...`) is not part of the source tree here — only its
  documentation is — so those components are modelled from the spec, as
  marked on each definition.

Numbers are embedded as `ℚ` (the JS/Python floats of interest are exact
small rationals), strings as `String`/`List Char`.
-/

set_option maxHeartbeats 1000000

namespace Rosetta

/-! ## JavaScript character helpers (content.js) -/

/-- Characters matched by `\s` in a JavaScript regular expression:
space, the control whitespace characters, and the Unicode space
separators (NBSP, ogham space, en/em spaces, line/paragraph separator,
narrow NBSP, medium mathematical space, ideographic space, BOM). -/
def isJsSpace (c : Char) : Bool :=
  let n := c.toNat
  n = 0x20 || n = 0x09 || n = 0x0a || n = 0x0b || n = 0x0c || n = 0x0d ||
  n = 0xa0 || n = 0x1680 || (0x2000 ≤ n && n ≤ 0x200a) ||
  n = 0x2028 || n = 0x2029 || n = 0x202f || n = 0x205f || n = 0x3000 ||
  n = 0xfeff

/-- Characters matched by the class `[_\-\s]` in the first `replace` of
`normalizeFieldName` (content.js line 343): underscore (code 95),
hyphen (code 45), and JavaScript whitespace. -/
def isFieldSep (c : Char) : Bool :=
  c.toNat = 95 || c.toNat = 45 || isJsSpace c

/-- Per-character model of JavaScript `String.prototype.toLowerCase`
restricted to the Basic Latin range: `Char.toLower` maps `A`–`Z` to
`a`–`z` and fixes everything else. -/
def jsLowerChar (c : Char) : Char := c.toLower

/-- The second `replace` of `normalizeFieldName` (content.js line 344):
`/([a-z])([A-Z])/g` with replacement `$1$2`.  Each match re-emits exactly
the two captured characters, then scanning resumes after the match. -/
def camelPass : List Char → List Char
  | [] => []
  | [c] => [c]
  | a :: b :: rest =>
      if a.isLower && b.isUpper then a :: b :: camelPass rest
      else a :: camelPass (b :: rest)

/-- `normalizeFieldName` (content.js lines 341–346) on the character
list: lower-case, drop every run of `[_\-\s]`, apply the camel-boundary
`replace`, lower-case again. -/
def normalizeFieldChars (s : List Char) : List Char :=
  (camelPass ((s.map jsLowerChar).filter (fun c => !isFieldSep c))).map
    jsLowerChar

/-- `normalizeFieldName` (content.js lines 341–346) as a `String`
transformation. -/
def normalizeFieldName (s : String) : String :=
  ⟨normalizeFieldChars s.data⟩

/-! ### Facts about the helpers -/

theorem char_toNat_ofNat {n : Nat} (h : n.isValidChar) :
    (Char.ofNat n).toNat = n := by
  simp only [Char.ofNat, h, dif_pos, Char.ofNatAux, Char.toNat, UInt32.toNat]
  rfl

theorem jsLowerChar_toNat (c : Char) :
    (jsLowerChar c).toNat =
      if 65 ≤ c.toNat ∧ c.toNat ≤ 90 then c.toNat + 32 else c.toNat := by
  unfold jsLowerChar Char.toLower
  split
  · next h =>
      rw [if_pos ⟨h.1, h.2⟩]
      have hv : (c.toNat + 32).isValidChar := by
        left
        omega
      exact char_toNat_ofNat hv
  · next h =>
      rw [if_neg (by omega)]

theorem jsLowerChar_not_upper (c : Char) :
    ¬(65 ≤ (jsLowerChar c).toNat ∧ (jsLowerChar c).toNat ≤ 90) := by
  have h := jsLowerChar_toNat c
  split at h <;> omega

theorem jsLowerChar_idem (c : Char) :
    jsLowerChar (jsLowerChar c) = jsLowerChar c := by
  have h := jsLowerChar_not_upper c
  show (jsLowerChar c).toLower = jsLowerChar c
  unfold Char.toLower
  rw [if_neg (by exact_mod_cast h)]

theorem isFieldSep_jsLowerChar (c : Char) (h : isFieldSep c = false) :
    isFieldSep (jsLowerChar c) = false := by
  have ht := jsLowerChar_toNat c
  unfold isFieldSep isJsSpace at *
  split at ht
  all_goals simp_all
  all_goals omega

theorem camelPass_eq (l : List Char) : camelPass l = l :=
  match l with
  | [] => rfl
  | [_] => rfl
  | a :: b :: rest => by
      by_cases h : (a.isLower && b.isUpper) = true
      · simp [camelPass, h, camelPass_eq rest]
      · simp [camelPass, h, camelPass_eq (b :: rest)]

theorem normalizeFieldChars_idem (s : List Char) :
    normalizeFieldChars (normalizeFieldChars s) = normalizeFieldChars s := by
  unfold normalizeFieldChars
  simp only [camelPass_eq]
  set u := (s.map jsLowerChar).filter (fun c => !isFieldSep c) with hu
  have hmm : (u.map jsLowerChar).map jsLowerChar = u.map jsLowerChar := by
    rw [List.map_map]
    exact List.map_congr_left (fun c _ => jsLowerChar_idem c)
  have hfilter :
      (u.map jsLowerChar).filter (fun c => !isFieldSep c) =
        u.map jsLowerChar := by
    apply List.filter_eq_self.mpr
    intro c hc
    rcases List.mem_map.mp hc with ⟨d, hd, rfl⟩
    have hdsep : isFieldSep d = false := by
      have := List.of_mem_filter (p := fun c => !isFieldSep c) hd
      simpa using this
    simp [isFieldSep_jsLowerChar d hdsep]
  rw [hmm, hfilter, hmm]

/-- C9: the content script's `normalizeFieldName` is idempotent — its
output is already lower-case and free of underscores, hyphens and
whitespace, so a second application changes nothing. -/
theorem normalizeFieldName_idem (s : String) :
    normalizeFieldName (normalizeFieldName s) = normalizeFieldName s := by
  unfold normalizeFieldName
  exact congrArg String.mk (normalizeFieldChars_idem s.data)

/-! ## Extension form filling (content.js `fillForm` / `setInputValue`)

The DOM is abstracted as a list of form controls in document order.  The
attributes the script reads are stored fields; the three lookups of
`getFieldLabel` that walk the DOM tree (associated/parent `<label>`,
`aria-labelledby` target, preceding-sibling text) are abstracted as the
oracle fields `labelFor`, `labelledBy`, `siblingText`, since the page
tree itself is outside the embedding.  CSS-selector syntax errors for
exotic field names are likewise outside the embedding: the `#id` /
`[name=...]` queries are modelled as attribute equality over the
controls. -/

/-- JavaScript `String.prototype.toLowerCase`, Basic Latin range. -/
def jsLower (s : String) : String := ⟨s.data.map jsLowerChar⟩

/-- JavaScript `String.prototype.includes`. -/
def jsIncludes (s t : String) : Bool := decide (t.data <:+: s.data)

/-- One fillable control (`input` / `select` / `textarea`) on the page,
in document order within the ambient list. -/
structure PageInput where
  name : String
  id : String
  ariaLabel : String
  placeholder : String
  /-- `input.type` (lower-case HTML type; `select-one` / `textarea` for
  the other tags). -/
  typ : String
  /-- `tagName`: `INPUT`, `SELECT` or `TEXTAREA`. -/
  tag : String
  /-- Text of an associated `label[for]` or enclosing `<label>`, if any
  (DOM lookup, abstracted). -/
  labelFor : Option String
  /-- Text of the `aria-labelledby` target, if any (DOM lookup,
  abstracted). -/
  labelledBy : Option String
  /-- Preceding-sibling text fall-back of `getFieldLabel`, if any (DOM
  lookup, abstracted). -/
  siblingText : Option String
  value : String
  checked : Bool
  /-- `(value, text)` of each `<option>`, for selects. -/
  options : List (String × String)
deriving DecidableEq

/-- `getFieldName` (content.js lines 91–99): `name` > `id` >
`aria-label` > `placeholder` > `type`.  (The final random fall-back of
the source fires only when even `input.type` is the empty string, which
does not happen for the selected elements.) -/
def getFieldName (i : PageInput) : String :=
  if i.name ≠ "" then i.name
  else if i.id ≠ "" then i.id
  else if i.ariaLabel ≠ "" then i.ariaLabel
  else if i.placeholder ≠ "" then i.placeholder
  else i.typ

/-- `getFieldLabel` (content.js lines 115–177): associated/parent label,
then `aria-label`, `aria-labelledby`, `placeholder`, preceding-sibling
text; `none` models the `null` return. -/
def getFieldLabel (i : PageInput) : Option String :=
  match i.labelFor with
  | some t => some t
  | none =>
      if i.ariaLabel ≠ "" then some i.ariaLabel
      else
        match i.labelledBy with
        | some t => some t
        | none =>
            if i.placeholder ≠ "" then some i.placeholder
            else i.siblingText

/-- One field's data as handed to `fillForm`: either a bare string value
or an object `\x7bvalue, confidence, not_found, uncertain\x7d`; only
`value` and `not_found` are ever read by `fillForm`, so only they are
modelled. -/
inductive FieldData where
  | str (s : String)
  | obj (value : Option String) (notFound : Bool)
deriving DecidableEq

/-- `fieldData.not_found` under JavaScript truthiness: reading the
property off a string yields `undefined`, which is falsy. -/
def fdNotFound : FieldData → Bool
  | .str _ => false
  | .obj _ nf => nf

/-- `const value = fieldData.value || fieldData` (content.js line 275):
the `value` property when it is a truthy (non-empty) string, otherwise
the field data itself. -/
def coerceValue : FieldData → FieldData
  | .str s => .str s
  | .obj v nf =>
      match v with
      | some s => if s ≠ "" then .str s else .obj v nf
      | none => .obj v nf

/-- `!value || value === ''` (content.js line 276), negated: a string is
truthy when non-empty; an object is always truthy and never `=== ''`. -/
def valueTruthy : FieldData → Bool
  | .str s => s ≠ ""
  | .obj _ _ => true

/-- An entry survives both skip checks of the `fillForm` loop. -/
def shouldFill (fd : FieldData) : Bool :=
  !fdNotFound fd && valueTruthy (coerceValue fd)

/-- String coercion applied when the value is assigned to `input.value`:
a plain object renders as `[object Object]`. -/
def fillString : FieldData → String
  | .str s => s
  | .obj _ _ => "[object Object]"

/-- `setInputValue` (content.js lines 351–386).  `none` models the
`catch` path returning `false` (the input is left unmodified): calling
`value.toLowerCase()` on an object raises a `TypeError`. -/
def setInputValue (i : PageInput) (v : FieldData) : Option PageInput :=
  let ty := jsLower i.typ
  if ty = "checkbox" then
    match v with
    | .str s =>
        some { i with checked := ["true", "yes", "1", "on"].contains (jsLower s) }
    | .obj _ _ => none
  else if ty = "radio" then
    match v with
    | .str s => some (if i.value = s then { i with checked := true } else i)
    | .obj _ _ => some i
  else if i.tag = "SELECT" then
    match v with
    | .str s =>
        match i.options.find? (fun o => o.1 = s || o.2 = s) with
        | some o => some { i with value := o.1 }
        | none => some i
    | .obj _ _ => some i
  else
    some { i with value := fillString v }

/-- `findInputByName` (content.js lines 307–336): exact `name` / `id`
queries, then the same with the normalised name, then the fuzzy scan
comparing normalised names and labels.  Returns the index of the first
matching control in document order. -/
def findInputByName (inputs : List PageInput) (fieldName : String) :
    Option Nat :=
  let normalized := normalizeFieldName fieldName
  (inputs.findIdx? (fun i => i.name = fieldName)).orElse fun _ =>
  (inputs.findIdx? (fun i => i.id = fieldName)).orElse fun _ =>
  (inputs.findIdx? (fun i => i.name = normalized)).orElse fun _ =>
  (inputs.findIdx? (fun i => i.id = normalized)).orElse fun _ =>
  inputs.findIdx? fun i =>
    let nm := normalizeFieldName (getFieldName i)
    let lb := normalizeFieldName ((getFieldLabel i).getD "")
    nm = normalized || jsIncludes lb normalized || jsIncludes normalized lb

/-- Apply `setInputValue` to the control at `idx`, replacing it in the
page when the set succeeds; the `1` counts `filledCount++`. -/
def fillAt (inputs : List PageInput) (idx : Nat) (v : FieldData) :
    List PageInput × Nat :=
  match inputs[idx]? with
  | none => (inputs, 0)
  | some i =>
      match setInputValue i v with
      | some i' => (inputs.set idx i', 1)
      | none => (inputs, 0)

/-- One iteration of the `fillForm` loop (content.js lines 265–296):
skip on `not_found`, skip on empty coerced value, otherwise find the
input and set it, counting a successful set.  (The `const value`
binding of the source is inlined as `coerceValue e.2`.) -/
def fillStep (inputs : List PageInput) (e : String × FieldData) :
    List PageInput × Nat :=
  if fdNotFound e.2 then (inputs, 0)
  else if !valueTruthy (coerceValue e.2) then (inputs, 0)
  else
    match findInputByName inputs e.1 with
    | none => (inputs, 0)
    | some idx => fillAt inputs idx (coerceValue e.2)

def fillFormGo (inputs : List PageInput) (cnt : Nat) :
    List (String × FieldData) → List PageInput × Nat
  | [] => (inputs, cnt)
  | e :: rest =>
      fillFormGo (fillStep inputs e).1 (cnt + (fillStep inputs e).2) rest

/-- `fillForm` (content.js lines 258–302): the final page state and the
number of fields filled. -/
def fillForm (inputs : List PageInput)
    (data : List (String × FieldData)) : List PageInput × Nat :=
  fillFormGo inputs 0 data

/-! ### Facts about `fillForm` -/

/-- A text input named `email`, initially empty. -/
def c10page : PageInput :=
  { name := "email", id := "", ariaLabel := "", placeholder := "",
    typ := "text", tag := "INPUT", labelFor := none, labelledBy := none,
    siblingText := none, value := "", checked := false, options := [] }

/-- The fields `setInputValue` never touches: everything except `value`
and `checked`. -/
def sameShape (a b : PageInput) : Prop :=
  a.name = b.name ∧ a.id = b.id ∧ a.ariaLabel = b.ariaLabel ∧
  a.placeholder = b.placeholder ∧ a.typ = b.typ ∧ a.tag = b.tag ∧
  a.labelFor = b.labelFor ∧ a.labelledBy = b.labelledBy ∧
  a.siblingText = b.siblingText ∧ a.options = b.options

theorem sameShape_refl (a : PageInput) : sameShape a a :=
  ⟨rfl, rfl, rfl, rfl, rfl, rfl, rfl, rfl, rfl, rfl⟩

theorem sameShape_update_value (i : PageInput) (s : String) :
    sameShape i { i with value := s } :=
  ⟨rfl, rfl, rfl, rfl, rfl, rfl, rfl, rfl, rfl, rfl⟩

theorem sameShape_update_checked (i : PageInput) (b : Bool) :
    sameShape i { i with checked := b } :=
  ⟨rfl, rfl, rfl, rfl, rfl, rfl, rfl, rfl, rfl, rfl⟩

theorem setInputValue_sameShape {i i' : PageInput} {v : FieldData}
    (h : setInputValue i v = some i') : sameShape i i' := by
  cases v with
  | str s =>
      simp only [setInputValue] at h
      repeat' split at h
      all_goals
        first
          | exact Option.noConfusion h
          | (simp only [Option.some.injEq] at h
             subst h
             first
               | exact sameShape_refl i
               | exact sameShape_update_checked i _
               | exact sameShape_update_value i _)
  | obj w nf =>
      simp only [setInputValue] at h
      repeat' split at h
      all_goals
        first
          | exact Option.noConfusion h
          | (simp only [Option.some.injEq] at h
             subst h
             first
               | exact sameShape_refl i
               | exact sameShape_update_checked i _
               | exact sameShape_update_value i _)

theorem getFieldName_congr {a b : PageInput} (h : sameShape a b) :
    getFieldName a = getFieldName b := by
  obtain ⟨h1, h2, h3, h4, h5, _, _, _, _, _⟩ := h
  unfold getFieldName
  rw [h1, h2, h3, h4, h5]

theorem getFieldLabel_congr {a b : PageInput} (h : sameShape a b) :
    getFieldLabel a = getFieldLabel b := by
  obtain ⟨_, _, h3, h4, _, _, h7, h8, h9, _⟩ := h
  unfold getFieldLabel
  rw [h3, h4, h7, h8, h9]

theorem findIdx_congr {α β : Type} {R : α → β → Prop}
    {p : α → Bool} {q : β → Bool} {l : List α} {l' : List β}
    (h : List.Forall₂ R l l') (hpq : ∀ a b, R a b → p a = q b) :
    ∀ n, l.findIdx? p n = l'.findIdx? q n := by
  induction h with
  | nil => intro n; rfl
  | cons ha _ ih =>
      intro n
      rw [List.findIdx?_cons, List.findIdx?_cons, hpq _ _ ha, ih (n + 1)]

theorem findInputByName_congr {l l' : List PageInput}
    (h : List.Forall₂ sameShape l l') (f : String) :
    findInputByName l f = findInputByName l' f := by
  have hname : ∀ g : String,
      l.findIdx? (fun i => i.name = g) = l'.findIdx? (fun i => i.name = g) :=
    fun g => findIdx_congr h (fun a b hab => by rw [hab.1]) 0
  have hid : ∀ g : String,
      l.findIdx? (fun i => i.id = g) = l'.findIdx? (fun i => i.id = g) :=
    fun g => findIdx_congr h (fun a b hab => by rw [hab.2.1]) 0
  have hfuzzy :
      l.findIdx? (fun i =>
          normalizeFieldName (getFieldName i) = normalizeFieldName f ||
          jsIncludes (normalizeFieldName ((getFieldLabel i).getD ""))
            (normalizeFieldName f) ||
          jsIncludes (normalizeFieldName f)
            (normalizeFieldName ((getFieldLabel i).getD ""))) =
        l'.findIdx? (fun i =>
          normalizeFieldName (getFieldName i) = normalizeFieldName f ||
          jsIncludes (normalizeFieldName ((getFieldLabel i).getD ""))
            (normalizeFieldName f) ||
          jsIncludes (normalizeFieldName f)
            (normalizeFieldName ((getFieldLabel i).getD ""))) :=
    findIdx_congr h (fun a b hab => by
      rw [getFieldName_congr hab, getFieldLabel_congr hab]) 0
  simp only [findInputByName]
  rw [hname f, hid f, hname (normalizeFieldName f), hid (normalizeFieldName f),
    hfuzzy]

theorem forall₂_sameShape_set :
    ∀ (l : List PageInput) (idx : Nat) {i i' : PageInput},
      l[idx]? = some i → sameShape i i' →
      List.Forall₂ sameShape l (l.set idx i') := by
  intro l
  induction l with
  | nil => intro idx i i' h; simp at h
  | cons a t ih =>
      intro idx i i' h hs
      cases idx with
      | zero =>
          simp only [List.getElem?_cons_zero, Option.some.injEq] at h
          subst h
          exact List.Forall₂.cons hs
            (List.forall₂_same.mpr fun x _ => sameShape_refl x)
      | succ n =>
          simp only [List.getElem?_cons_succ] at h
          exact List.Forall₂.cons (sameShape_refl a) (ih n h hs)

theorem fillStep_skip {inputs : List PageInput} {e : String × FieldData}
    (h : shouldFill e.2 = false) : fillStep inputs e = (inputs, 0) := by
  unfold fillStep
  by_cases hnf : fdNotFound e.2 = true
  · rw [if_pos hnf]
  · have hv : valueTruthy (coerceValue e.2) = false := by
      unfold shouldFill at h
      rcases Bool.and_eq_false_iff.mp h with h1 | h1
      · exact absurd (by simpa using h1) hnf
      · exact h1
    rw [if_neg hnf, if_pos (by simp [hv])]

theorem fillAt_cases (inputs : List PageInput) (idx : Nat) (v : FieldData) :
    fillAt inputs idx v = (inputs, 0) ∨
    ∃ i i', inputs[idx]? = some i ∧ setInputValue i v = some i' ∧
      fillAt inputs idx v = (inputs.set idx i', 1) := by
  cases hg : inputs[idx]? with
  | none => exact Or.inl (by simp [fillAt, hg])
  | some i =>
      cases hset : setInputValue i v with
      | none => exact Or.inl (by simp [fillAt, hg, hset])
      | some i' =>
          exact Or.inr ⟨i, i', rfl, hset, by simp [fillAt, hg, hset]⟩

theorem fillStep_cases (inputs : List PageInput) (e : String × FieldData) :
    fillStep inputs e = (inputs, 0) ∨
    ∃ idx i i', shouldFill e.2 = true ∧
      findInputByName inputs e.1 = some idx ∧
      inputs[idx]? = some i ∧
      setInputValue i (coerceValue e.2) = some i' ∧
      fillStep inputs e = (inputs.set idx i', 1) := by
  by_cases hs : shouldFill e.2 = true
  · obtain ⟨h1, hv⟩ :
        (!fdNotFound e.2) = true ∧ valueTruthy (coerceValue e.2) = true := by
      simpa [shouldFill] using hs
    have hnf : fdNotFound e.2 = false := by simpa using h1
    have hstep : fillStep inputs e =
        match findInputByName inputs e.1 with
        | none => (inputs, 0)
        | some idx => fillAt inputs idx (coerceValue e.2) := by
      unfold fillStep
      rw [if_neg (by simp [hnf]), if_neg (by simp [hv])]
    cases hf : findInputByName inputs e.1 with
    | none => exact Or.inl (by rw [hstep, hf])
    | some idx =>
        rcases fillAt_cases inputs idx (coerceValue e.2) with hz | ⟨i, i', hg, hset, hfill⟩
        · exact Or.inl (by rw [hstep, hf]; exact hz)
        · exact Or.inr ⟨idx, i, i', hs, rfl, hg, hset, by rw [hstep, hf]; exact hfill⟩
  · exact Or.inl (fillStep_skip (by simpa using hs))

theorem fillFormGo_filter :
    ∀ (data : List (String × FieldData)) (inputs : List PageInput)
      (cnt : Nat),
      fillFormGo inputs cnt data =
        fillFormGo inputs cnt (data.filter fun e => shouldFill e.2) := by
  intro data
  induction data with
  | nil => intro inputs cnt; rfl
  | cons e rest ih =>
      intro inputs cnt
      by_cases hs : shouldFill e.2 = true
      · rw [List.filter_cons, if_pos hs]
        show fillFormGo (fillStep inputs e).1 (cnt + (fillStep inputs e).2)
            rest =
          fillFormGo (fillStep inputs e).1 (cnt + (fillStep inputs e).2)
            (rest.filter fun e => shouldFill e.2)
        exact ih _ _
      · have hf : shouldFill e.2 = false := by simpa using hs
        rw [List.filter_cons, if_neg hs]
        show fillFormGo (fillStep inputs e).1 (cnt + (fillStep inputs e).2)
            rest = fillFormGo inputs cnt (rest.filter fun e => shouldFill e.2)
        rw [fillStep_skip hf]
        exact ih _ _

theorem fillFormGo_frame :
    ∀ (data : List (String × FieldData)) (inputs : List PageInput)
      (cnt ix : Nat),
      (∀ e ∈ data, shouldFill e.2 = true →
        findInputByName inputs e.1 ≠ some ix) →
      (fillFormGo inputs cnt data).1[ix]? = inputs[ix]? := by
  intro data
  induction data with
  | nil => intro inputs cnt ix _; rfl
  | cons e rest ih =>
      intro inputs cnt ix h
      show (fillFormGo (fillStep inputs e).1 (cnt + (fillStep inputs e).2)
          rest).1[ix]? = inputs[ix]?
      rcases fillStep_cases inputs e with hskip | ⟨idx, i, i', hs, hf, hg, hset, hfill⟩
      · rw [hskip]
        exact ih inputs _ ix fun e' he' hs' => h e' (List.mem_cons_of_mem e he') hs'
      · rw [hfill]
        have hne : idx ≠ ix := by
          intro hEq
          exact h e (List.mem_cons_self e rest) hs (hEq ▸ hf)
        have hforall : List.Forall₂ sameShape inputs (inputs.set idx i') :=
          forall₂_sameShape_set inputs idx hg (setInputValue_sameShape hset)
        have hrest : ∀ e' ∈ rest, shouldFill e'.2 = true →
            findInputByName (inputs.set idx i') e'.1 ≠ some ix := by
          intro e' he' hs'
          rw [← findInputByName_congr hforall e'.1]
          exact h e' (List.mem_cons_of_mem e he') hs'
        rw [ih (inputs.set idx i') _ ix hrest]
        exact List.getElem?_set_ne hne

/-- C10 counterexample: an object-valued entry whose `value` property is
the empty string (and whose `not_found` is `false`) is *not* skipped —
the `fieldData.value || fieldData` coercion substitutes the object
itself, which is truthy, and the matching text input is overwritten with
the string rendering `[object Object]`, so `fillForm` does write to an
input whose field value is the empty string. -/
theorem fillForm_writes_on_empty_value :
    fdNotFound (FieldData.obj (some "") false) = false ∧
    (fillForm [c10page] [("email", FieldData.obj (some "") false)]).1.map
        PageInput.value = ["[object Object]"] ∧
    (fillForm [c10page]
        [("email", FieldData.obj (some "") false)]).1 ≠ [c10page] := by
  refine ⟨rfl, by decide, by decide⟩

/-- C10 (amended): `fillForm` skips entries whose data has `not_found`
set and entries whose *coerced* value — `fieldData.value` when that is a
non-empty string, otherwise `fieldData` itself — is falsy or the empty
string (so an object entry with a missing or empty `value` property is
coerced to the object itself and is still written); and any input that
is not the `findInputByName` target of some non-skipped entry is left
unchanged. -/
theorem fillForm_skip_and_frame (inputs : List PageInput)
    (data : List (String × FieldData)) (ix : Nat)
    (h : ∀ e ∈ data, shouldFill e.2 = true →
      findInputByName inputs e.1 ≠ some ix) :
    fillForm inputs data =
        fillForm inputs (data.filter fun e => shouldFill e.2) ∧
    (fillForm inputs data).1[ix]? = inputs[ix]? :=
  ⟨fillFormGo_filter data inputs 0, fillFormGo_frame data inputs 0 ix h⟩

/-- Witness for `fillForm_skip_and_frame` at a concrete page and data
set: a `not_found` entry targeting the only input leaves the page
unchanged. -/
theorem fillForm_skip_and_frame_witness :
    fillForm [c10page] [("email", FieldData.obj (some "John") true)] =
        fillForm [c10page]
          (List.filter (fun e => shouldFill e.2)
            [("email", FieldData.obj (some "John") true)]) ∧
    (fillForm [c10page]
        [("email", FieldData.obj (some "John") true)]).1[0]? =
      [c10page][0]? :=
  fillForm_skip_and_frame [c10page]
    [("email", FieldData.obj (some "John") true)] 0 (by decide)

/-! ## OCR pipeline

The Python implementation (`backend/ocr/...`) is not in the source tree;
the definitions below are modelled from the spec, as each doc comment
states. -/

/-- Modelled from the spec: the supported language enumeration of
`language_detection.py` (ENGLISH, ARABIC, TAMIL, HINDI), listed in the
fixed priority order used for tie-breaking. -/
inductive Language where
  | english
  | arabic
  | tamil
  | hindi
deriving DecidableEq

/-- Modelled from the spec: classification of one character by Unicode
block membership into a script family — Basic Latin letters, Arabic
(U+0600–U+06FF), Tamil (U+0B80–U+0BFF), Devanagari (U+0900–U+097F);
`none` for whitespace, digits, punctuation and anything else. -/
def charFamily (c : Char) : Option Language :=
  let n := c.toNat
  if (65 ≤ n ∧ n ≤ 90) ∨ (97 ≤ n ∧ n ≤ 122) then some .english
  else if 0x0600 ≤ n ∧ n ≤ 0x06FF then some .arabic
  else if 0x0B80 ≤ n ∧ n ≤ 0x0BFF then some .tamil
  else if 0x0900 ≤ n ∧ n ≤ 0x097F then some .hindi
  else none

/-- Number of characters of `s` classified into family `l`. -/
def countFamily (s : List Char) (l : Language) : Nat :=
  (s.filter fun c => charFamily c = some l).length

/-- Modelled from the spec: `LanguageDetector.detect_language` — tally
counts per family and return the family with the highest count, ties
broken by the priority order English > Arabic > Tamil > Hindi; `none`
(the caller falls back to the configured default) when no character
matches any family. -/
def detect_primary (s : List Char) : Option Language :=
  let en := countFamily s .english
  let ar := countFamily s .arabic
  let ta := countFamily s .tamil
  let hi := countFamily s .hindi
  if en ≥ ar ∧ en ≥ ta ∧ en ≥ hi ∧ 0 < en then some .english
  else if ar ≥ ta ∧ ar ≥ hi ∧ 0 < ar then some .arabic
  else if ta ≥ hi ∧ 0 < ta then some .tamil
  else if 0 < hi then some .hindi
  else none

/-- Modelled from the spec: the axis-aligned bounding box
`(x, y, width, height)` of the data model, with rational coordinates. -/
structure Box where
  x : ℚ
  y : ℚ
  w : ℚ
  h : ℚ
deriving DecidableEq

/-- Modelled from the spec: one `ExtractedTextRegion` of the data model
(`models.py` `ExtractedText`). -/
structure Region where
  text : String
  confidence : ℚ
  bounding_box : Option Box
  language : Language
  page_number : Nat
deriving DecidableEq

/-- Clamp a confidence score into `[0, 1]`. -/
def clamp01 (c : ℚ) : ℚ := max 0 (min 1 c)

/-- Modelled from the spec: region construction clamps the engine's
native score to `[0.0, 1.0]` at construction time. -/
def mkRegion (text : String) (c : ℚ) (bb : Option Box) (lang : Language)
    (page : Nat) : Region :=
  { text := text, confidence := clamp01 c, bounding_box := bb,
    language := lang, page_number := page }

/-- Modelled from the spec: `PaddleOCRParser.normalize_bbox` — the
axis-aligned bounding rectangle of a polygon (`x = min xs`,
`y = min ys`, `width = max xs - min xs`, `height = max ys - min ys`),
with `null` for a degenerate polygon of zero width or height. -/
def normalize_bbox (poly : List (ℚ × ℚ)) : Option Box :=
  match poly with
  | [] => none
  | p :: ps =>
      let xs := (p :: ps).map Prod.fst
      let ys := (p :: ps).map Prod.snd
      let minX := xs.foldl min p.1
      let maxX := xs.foldl max p.1
      let minY := ys.foldl min p.2
      let maxY := ys.foldl max p.2
      if maxX - minX = 0 ∨ maxY - minY = 0 then none
      else some ⟨minX, minY, maxX - minX, maxY - minY⟩

/-! ### Spatial deduplication (`SpatialDeduplicator.deduplicate`) -/

/-- Area of an axis-aligned box. -/
def area (b : Box) : ℚ := b.w * b.h

/-- Intersection area of two axis-aligned boxes: the product of the
clamped axis overlaps. -/
def interArea (a b : Box) : ℚ :=
  max 0 (min (a.x + a.w) (b.x + b.w) - max a.x b.x) *
  max 0 (min (a.y + a.h) (b.y + b.h) - max a.y b.y)

/-- Modelled from the spec: IoU of two optional boxes —
intersection area over union area, `0` when either box is `null`
(and when the union is degenerate, which cannot happen for
positive-extent boxes). -/
def iou (a b : Option Box) : ℚ :=
  match a, b with
  | some a, some b =>
      let inter := interArea a b
      let uni := area a + area b - inter
      if uni = 0 then 0 else inter / uni
  | _, _ => 0

/-- Insert a region into a confidence-descending list, before the first
strictly less confident region (stable: equal confidences keep input
order, the first-encountered tie-break recommended by the spec). -/
def insertByConf (r : Region) : List Region → List Region
  | [] => [r]
  | x :: xs =>
      if x.confidence < r.confidence then r :: x :: xs
      else x :: insertByConf r xs

/-- Stable sort by confidence, highest first. -/
def sortByConfDesc : List Region → List Region
  | [] => []
  | r :: rs => insertByConf r (sortByConfDesc rs)

/-- The current region survives against every previously kept region:
regions on other pages are never compared, and on the same page the IoU
must stay strictly below the threshold. -/
def keepsRegion (thr : ℚ) (kept : List Region) (r : Region) : Bool :=
  kept.all fun k =>
    k.page_number ≠ r.page_number ||
    iou r.bounding_box k.bounding_box < thr

/-- Greedy pass of non-maximum suppression over the sorted regions. -/
def dedupGo (thr : ℚ) (kept : List Region) : List Region → List Region
  | [] => []
  | r :: rest =>
      if keepsRegion thr kept r then r :: dedupGo thr (r :: kept) rest
      else dedupGo thr kept rest

/-- Modelled from the spec: `SpatialDeduplicator.deduplicate` — sort
descending by confidence, iterate in that order, keep a region exactly
when its IoU against every previously kept same-page region is strictly
below `iou_threshold`. -/
def deduplicate (regions : List Region) (thr : ℚ) : List Region :=
  dedupGo thr [] (sortByConfDesc regions)

/-- Two same-box regions with confidences 0.9 / 0.6 (the spec's
`deduplicate` example). -/
def regHigh : Region := ⟨"name", 9/10, some ⟨0, 0, 10, 5⟩, .english, 1⟩

def regLow : Region := ⟨"name", 6/10, some ⟨0, 0, 10, 5⟩, .english, 1⟩

/-- A region the engine returned without usable geometry. -/
def regNoBox : Region := ⟨"stray", 7/10, none, .english, 1⟩

/-- Two regions overlapping with IoU exactly 0.8 (boxes `(0,0,10,9)` and
`(0,1,10,9)`: intersection 80, union 100). -/
def regA80 : Region := ⟨"a", 9/10, some ⟨0, 0, 10, 9⟩, .english, 1⟩

def regB80 : Region := ⟨"b", 6/10, some ⟨0, 1, 10, 9⟩, .english, 1⟩

/-! ### Facts about `deduplicate` -/

theorem iou_none_left (b : Option Box) : iou none b = 0 := by
  cases b <;> rfl

theorem iou_none_right (a : Option Box) : iou a none = 0 := by
  cases a <;> rfl

theorem keepsRegion_of_boxless {thr : ℚ} (h : 0 < thr) (kept : List Region)
    {r : Region} (hb : r.bounding_box = none) :
    keepsRegion thr kept r = true := by
  simp only [keepsRegion, List.all_eq_true]
  intro k _
  have hlt : iou r.bounding_box k.bounding_box < thr := by
    rw [hb, iou_none_left]; exact h
  simp [hlt]

theorem dedupGo_keeps_boxless {thr : ℚ} (h : 0 < thr) :
    ∀ (l : List Region) (kept : List Region) (r : Region), r ∈ l →
      r.bounding_box = none → r ∈ dedupGo thr kept l := by
  intro l
  induction l with
  | nil => intro kept r hr; exact absurd hr (List.not_mem_nil r)
  | cons x rest ih =>
      intro kept r hr hb
      rcases List.mem_cons.mp hr with rfl | hr'
      · rw [dedupGo, if_pos (keepsRegion_of_boxless h kept hb)]
        exact List.mem_cons_self _ _
      · rw [dedupGo]
        split
        · exact List.mem_cons_of_mem _ (ih (x :: kept) r hr' hb)
        · exact ih kept r hr' hb

theorem mem_insertByConf {x r : Region} :
    ∀ {l : List Region}, x ∈ insertByConf r l ↔ x = r ∨ x ∈ l := by
  intro l
  induction l with
  | nil => simp [insertByConf]
  | cons y ys ih =>
      simp only [insertByConf]
      split
      · simp [List.mem_cons]
      · simp only [List.mem_cons, ih]
        tauto

theorem mem_sortByConfDesc {x : Region} :
    ∀ {l : List Region}, x ∈ sortByConfDesc l ↔ x ∈ l := by
  intro l
  induction l with
  | nil => simp [sortByConfDesc]
  | cons y ys ih => simp [sortByConfDesc, mem_insertByConf, ih]

/-- C1: `deduplicate` is greedy non-maximum suppression keyed on
confidence — with a positive threshold a box-less region (IoU `0`
against everything) is always kept, and on two same-box regions with
confidences 0.9 and 0.6 at threshold 0.5 only the 0.9 region remains. -/
theorem deduplicate_nms :
    (∀ (regions : List Region) (thr : ℚ), 0 < thr →
      ∀ r ∈ regions, r.bounding_box = none → r ∈ deduplicate regions thr) ∧
    deduplicate [regLow, regHigh] (1/2) = [regHigh] := by
  constructor
  · intro regions thr h r hr hb
    exact dedupGo_keeps_boxless h _ [] r (mem_sortByConfDesc.mpr hr) hb
  · norm_num [deduplicate, sortByConfDesc, insertByConf, dedupGo, keepsRegion,
      iou, interArea, area, regHigh, regLow, min_def, max_def]

/-- Witness for `deduplicate_nms` at a concrete input: the box-less
region survives deduplication at threshold 1. -/
theorem deduplicate_nms_witness :
    regNoBox ∈ deduplicate [regNoBox, regHigh] 1 :=
  deduplicate_nms.1 [regNoBox, regHigh] 1 zero_lt_one regNoBox
    (List.Mem.head _) rfl

/-! ### IoU geometry and suppression at threshold 1 -/


theorem interArea_nonneg (a b : Box) : 0 ≤ interArea a b :=
  mul_nonneg (le_max_left 0 _) (le_max_left 0 _)

theorem interArea_le_left (a b : Box) (haw : 0 ≤ a.w) (hah : 0 ≤ a.h) :
    interArea a b ≤ area a := by
  unfold interArea area
  have hox : max 0 (min (a.x + a.w) (b.x + b.w) - max a.x b.x) ≤ a.w := by
    apply max_le haw
    have h1 := min_le_left (a.x + a.w) (b.x + b.w)
    have h2 := le_max_left a.x b.x
    linarith
  have hoy : max 0 (min (a.y + a.h) (b.y + b.h) - max a.y b.y) ≤ a.h := by
    apply max_le hah
    have h1 := min_le_left (a.y + a.h) (b.y + b.h)
    have h2 := le_max_left a.y b.y
    linarith
  exact mul_le_mul hox hoy (le_max_left 0 _) haw

theorem interArea_comm (a b : Box) : interArea a b = interArea b a := by
  unfold interArea
  rw [min_comm (a.x + a.w), max_comm a.x, min_comm (a.y + a.h), max_comm a.y]

theorem interArea_le_right (a b : Box) (hbw : 0 ≤ b.w) (hbh : 0 ≤ b.h) :
    interArea a b ≤ area b :=
  interArea_comm a b ▸ interArea_le_left b a hbw hbh

theorem overlap_full_eq {P Q R S d : ℚ} (h : min P Q - max R S = d)
    (hPR : P - R = d) : Q ≥ P ∧ S ≤ R := by
  have h1 := min_le_left P Q
  have h2 := min_le_right P Q
  have h3 := le_max_left R S
  have h4 := le_max_right R S
  constructor <;> linarith

theorem interArea_eq_areas {a b : Box} (haw : 0 < a.w) (hah : 0 < a.h)
    (hbw : 0 < b.w) (hbh : 0 < b.h)
    (hIa : interArea a b = area a) (hIb : interArea a b = area b) :
    a = b := by
  set ox := min (a.x + a.w) (b.x + b.w) - max a.x b.x with hox
  set oy := min (a.y + a.h) (b.y + b.h) - max a.y b.y with hoy
  have hu_le_aw : max 0 ox ≤ a.w := by
    apply max_le haw.le
    have h1 := min_le_left (a.x + a.w) (b.x + b.w)
    have h2 := le_max_left a.x b.x
    rw [hox]; linarith
  have hu_le_bw : max 0 ox ≤ b.w := by
    apply max_le hbw.le
    have h1 := min_le_right (a.x + a.w) (b.x + b.w)
    have h2 := le_max_right a.x b.x
    rw [hox]; linarith
  have hv_le_ah : max 0 oy ≤ a.h := by
    apply max_le hah.le
    have h1 := min_le_left (a.y + a.h) (b.y + b.h)
    have h2 := le_max_left a.y b.y
    rw [hoy]; linarith
  have hv_le_bh : max 0 oy ≤ b.h := by
    apply max_le hbh.le
    have h1 := min_le_right (a.y + a.h) (b.y + b.h)
    have h2 := le_max_right a.y b.y
    rw [hoy]; linarith
  have hu0 : 0 ≤ max 0 ox := le_max_left 0 _
  have hv0 : 0 ≤ max 0 oy := le_max_left 0 _
  have hprod_a : max 0 ox * max 0 oy = a.w * a.h := hIa
  have hprod_b : max 0 ox * max 0 oy = b.w * b.h := hIb
  -- v = a.h
  have hv_ah : max 0 oy = a.h := by
    refine le_antisymm hv_le_ah ?_
    by_contra hlt
    push_neg at hlt
    have hchain : max 0 ox * max 0 oy < a.w * a.h := by
      calc max 0 ox * max 0 oy ≤ a.w * max 0 oy :=
            mul_le_mul_of_nonneg_right hu_le_aw hv0
        _ < a.w * a.h := by exact mul_lt_mul_of_pos_left hlt haw
    linarith
  have hu_aw : max 0 ox = a.w := by
    have h' := hprod_a
    rw [hv_ah] at h'
    exact mul_right_cancel₀ (ne_of_gt hah) h'
  have hv_bh : max 0 oy = b.h := by
    refine le_antisymm hv_le_bh ?_
    by_contra hlt
    push_neg at hlt
    have hchain : max 0 ox * max 0 oy < b.w * b.h := by
      calc max 0 ox * max 0 oy ≤ b.w * max 0 oy :=
            mul_le_mul_of_nonneg_right hu_le_bw hv0
        _ < b.w * b.h := by exact mul_lt_mul_of_pos_left hlt hbw
    linarith
  have hu_bw : max 0 ox = b.w := by
    have h' := hprod_b
    rw [hv_bh] at h'
    exact mul_right_cancel₀ (ne_of_gt hbh) h'
  -- drop the max
  have hox_aw : ox = a.w := by
    rcases le_or_lt ox 0 with h0 | h0
    · rw [max_eq_left h0] at hu_aw; linarith
    · rw [max_eq_right h0.le] at hu_aw; exact hu_aw
  have hox_bw : ox = b.w := by
    rcases le_or_lt ox 0 with h0 | h0
    · rw [max_eq_left h0] at hu_bw; linarith
    · rw [max_eq_right h0.le] at hu_bw; exact hu_bw
  have hoy_ah : oy = a.h := by
    rcases le_or_lt oy 0 with h0 | h0
    · rw [max_eq_left h0] at hv_ah; linarith
    · rw [max_eq_right h0.le] at hv_ah; exact hv_ah
  have hoy_bh : oy = b.h := by
    rcases le_or_lt oy 0 with h0 | h0
    · rw [max_eq_left h0] at hv_bh; linarith
    · rw [max_eq_right h0.le] at hv_bh; exact hv_bh
  -- extract interval equalities on x
  have hxa := overlap_full_eq (hox ▸ hox_aw : min (a.x + a.w) (b.x + b.w) - max a.x b.x = a.w) (by ring)
  have hxb : min (b.x + b.w) (a.x + a.w) - max b.x a.x = b.w := by
    rw [min_comm, max_comm]
    exact hox ▸ hox_bw
  have hxb' := overlap_full_eq hxb (by ring)
  have hya := overlap_full_eq (hoy ▸ hoy_ah : min (a.y + a.h) (b.y + b.h) - max a.y b.y = a.h) (by ring)
  have hyb : min (b.y + b.h) (a.y + a.h) - max b.y a.y = b.h := by
    rw [min_comm, max_comm]
    exact hoy ▸ hoy_bh
  have hyb' := overlap_full_eq hyb (by ring)
  obtain ⟨hax, hay, haw', hah'⟩ := a
  obtain ⟨hbx, hby, hbw', hbh'⟩ := b
  simp only [Box.mk.injEq]
  simp only at hxa hxb' hya hyb'
  refine ⟨?_, ?_, ?_, ?_⟩ <;> [skip; skip; skip; skip]
  · linarith [hxa.2, hxb'.2]
  · linarith [hya.2, hyb'.2]
  · linarith [hxa.1, hxb'.1, hxa.2, hxb'.2]
  · linarith [hya.1, hyb'.1, hya.2, hyb'.2]


theorem iou_le_one {a b : Box} (haw : 0 < a.w) (hah : 0 < a.h)
    (hbw : 0 < b.w) (hbh : 0 < b.h) :
    iou (some a) (some b) ≤ 1 ∧ (1 ≤ iou (some a) (some b) → a = b) := by
  have hI0 := interArea_nonneg a b
  have hIa := interArea_le_left a b haw.le hah.le
  have hIb := interArea_le_right a b hbw.le hbh.le
  have harea : 0 < area a := mul_pos haw hah
  have hU : 0 < area a + area b - interArea a b := by linarith
  have hiou : iou (some a) (some b) =
      interArea a b / (area a + area b - interArea a b) := by
    simp only [iou]
    rw [if_neg (ne_of_gt hU)]
  constructor
  · rw [hiou]
    rw [div_le_one hU]
    linarith
  · intro hone
    rw [hiou, le_div_iff hU, one_mul] at hone
    have hIeq : interArea a b = area a ∧ interArea a b = area b := by
      constructor <;> linarith
    exact interArea_eq_areas haw hah hbw hbh hIeq.1 hIeq.2

theorem dedupGo_subset {thr : ℚ} :
    ∀ (l kept : List Region) (x : Region), x ∈ dedupGo thr kept l → x ∈ l := by
  intro l
  induction l with
  | nil => intro kept x hx; simpa [dedupGo] using hx
  | cons y rest ih =>
      intro kept x hx
      rw [dedupGo] at hx
      split at hx
      · rcases List.mem_cons.mp hx with rfl | hx'
        · exact List.mem_cons_self _ _
        · exact List.mem_cons_of_mem _ (ih (y :: kept) x hx')
      · exact List.mem_cons_of_mem _ (ih kept x hx)

theorem dedupGo_mem_or_suppressed (thr : ℚ) :
    ∀ (l kept : List Region) (r : Region), r ∈ l →
      r ∈ dedupGo thr kept l ∨
      ∃ k, (k ∈ kept ∨ k ∈ dedupGo thr kept l) ∧
        k.page_number = r.page_number ∧
        thr ≤ iou r.bounding_box k.bounding_box := by
  intro l
  induction l with
  | nil => intro kept r hr; exact absurd hr (List.not_mem_nil r)
  | cons x rest ih =>
      intro kept r hr
      by_cases hkeep : keepsRegion thr kept x = true
      · rw [dedupGo, if_pos hkeep]
        rcases List.mem_cons.mp hr with rfl | hr'
        · exact Or.inl (List.mem_cons_self _ _)
        · rcases ih (x :: kept) r hr' with hmem | ⟨k, hk, hpage, hiou⟩
          · exact Or.inl (List.mem_cons_of_mem _ hmem)
          · rcases hk with hk | hk
            · rcases List.mem_cons.mp hk with rfl | hk'
              · exact Or.inr ⟨k, Or.inr (List.mem_cons_self _ _), hpage, hiou⟩
              · exact Or.inr ⟨k, Or.inl hk', hpage, hiou⟩
            · exact Or.inr ⟨k, Or.inr (List.mem_cons_of_mem _ hk), hpage, hiou⟩
      · have hkeep' : keepsRegion thr kept x = false := by
          simpa using hkeep
        rw [dedupGo, if_neg (by simp [hkeep'])]
        rcases List.mem_cons.mp hr with rfl | hr'
        · obtain ⟨k, hk, hcond⟩ :
              ∃ k ∈ kept, k.page_number = r.page_number ∧
                thr ≤ iou r.bounding_box k.bounding_box := by
            have h2 := hkeep'
            simp only [keepsRegion, List.all_eq_false, Bool.or_eq_true,
              decide_eq_true_eq, not_or, ne_eq, not_not, not_lt] at h2
            exact h2
          exact Or.inr ⟨k, Or.inl hk, hcond.1, hcond.2⟩
        · exact ih kept r hr'


theorem posBoxes_LowHigh :
    ∀ r ∈ [regLow, regHigh], ∀ b : Box, r.bounding_box = some b →
      0 < b.w ∧ 0 < b.h := by
  intro r hr b hb
  rcases List.mem_cons.mp hr with rfl | hr'
  · obtain rfl : (⟨0, 0, 10, 5⟩ : Box) = b := by simpa [regLow] using hb
    norm_num
  · rcases List.mem_cons.mp hr' with rfl | hr''
    · obtain rfl : (⟨0, 0, 10, 5⟩ : Box) = b := by simpa [regHigh] using hb
      norm_num
    · exact absurd hr'' (List.not_mem_nil r)

theorem regLow_suppressed : regLow ∉ deduplicate [regLow, regHigh] 1 := by
  norm_num [deduplicate, sortByConfDesc, insertByConf, dedupGo, keepsRegion,
    iou, interArea, area, regHigh, regLow, min_def, max_def, Region.mk.injEq]

/-- C7: at `iou_threshold = 1.0` suppression happens only for
bit-identical boxes — a region (with positive-extent boxes throughout)
is discarded only when a kept region on the same page carries exactly
the same box, and the two regions overlapping with IoU 0.8 are both
kept. -/
theorem deduplicate_threshold_one :
    (∀ regions : List Region,
      (∀ r ∈ regions, ∀ b : Box, r.bounding_box = some b →
        0 < b.w ∧ 0 < b.h) →
      ∀ r ∈ regions, r ∉ deduplicate regions 1 →
        ∃ k ∈ deduplicate regions 1, k.page_number = r.page_number ∧
          k.bounding_box = r.bounding_box) ∧
    deduplicate [regA80, regB80] 1 = [regA80, regB80] := by
  constructor
  · intro regions hpos r hr hnot
    rcases dedupGo_mem_or_suppressed 1 (sortByConfDesc regions) [] r
        (mem_sortByConfDesc.mpr hr) with hmem | ⟨k, hk, hpage, hiou⟩
    · exact absurd hmem hnot
    · have hkmem : k ∈ deduplicate regions 1 := by
        rcases hk with hk | hk
        · exact absurd hk (List.not_mem_nil k)
        · exact hk
      refine ⟨k, hkmem, hpage, ?_⟩
      cases hrb : r.bounding_box with
      | none => rw [hrb, iou_none_left] at hiou; linarith
      | some br =>
          cases hkb : k.bounding_box with
          | none => rw [hrb, hkb, iou_none_right] at hiou; linarith
          | some bk =>
              have hrpos := hpos r hr br hrb
              have hkreg : k ∈ regions :=
                mem_sortByConfDesc.mp (dedupGo_subset _ _ k hkmem)
              have hkpos := hpos k hkreg bk hkb
              rw [hrb, hkb] at hiou
              have hbeq :=
                (iou_le_one hrpos.1 hrpos.2 hkpos.1 hkpos.2).2 hiou
              rw [hbeq]
  · norm_num [deduplicate, sortByConfDesc, insertByConf, dedupGo, keepsRegion,
      iou, interArea, area, regA80, regB80, min_def, max_def]

/-- Witness for `deduplicate_threshold_one`: the suppressed same-box
low-confidence region has a kept counterpart with the same page and
box. -/
theorem deduplicate_threshold_one_witness :
    ∃ k ∈ deduplicate [regLow, regHigh] 1,
      k.page_number = regLow.page_number ∧
      k.bounding_box = regLow.bounding_box :=
  deduplicate_threshold_one.1 [regLow, regHigh] posBoxes_LowHigh regLow
    (List.Mem.head _) regLow_suppressed

/-! ### Page locality of deduplication -/


/-- Confidence-descending order, as produced by `sortByConfDesc`. -/
def SortedConfDesc (l : List Region) : Prop :=
  l.Pairwise fun a b => b.confidence ≤ a.confidence

theorem mem_insertByConf_conf {r : Region} :
    ∀ {l : List Region} {y : Region}, y ∈ insertByConf r l →
      y = r ∨ y ∈ l := fun h => mem_insertByConf.mp h

theorem insertByConf_sorted {r : Region} :
    ∀ {l : List Region}, SortedConfDesc l → SortedConfDesc (insertByConf r l) := by
  intro l
  induction l with
  | nil => intro _; simp [insertByConf, SortedConfDesc]
  | cons x xs ih =>
      intro hs
      obtain ⟨hx, hxs⟩ := List.pairwise_cons.mp hs
      rw [insertByConf]
      split
      · next hlt =>
          refine List.pairwise_cons.mpr ⟨?_, hs⟩
          intro y hy
          rcases List.mem_cons.mp hy with rfl | hy'
          · exact le_of_lt hlt
          · exact le_trans (hx y hy') (le_of_lt hlt)
      · next hge =>
          refine List.pairwise_cons.mpr ⟨?_, ih hxs⟩
          intro y hy
          rcases mem_insertByConf.mp hy with rfl | hy'
          · exact le_of_not_lt hge
          · exact hx y hy'

theorem sortByConfDesc_sorted :
    ∀ l : List Region, SortedConfDesc (sortByConfDesc l) := by
  intro l
  induction l with
  | nil => simp [sortByConfDesc, SortedConfDesc]
  | cons x xs ih => exact insertByConf_sorted ih

theorem insertByConf_front {r : Region} {l : List Region}
    (h : ∀ y ∈ l, y.confidence < r.confidence) :
    insertByConf r l = r :: l := by
  cases l with
  | nil => rfl
  | cons y ys => rw [insertByConf, if_pos (h y (List.mem_cons_self y ys))]

theorem filter_insertByConf {q : Region → Bool} {r : Region} :
    ∀ {l : List Region}, SortedConfDesc l →
      (insertByConf r l).filter q =
        if q r then insertByConf r (l.filter q) else l.filter q := by
  intro l
  induction l with
  | nil =>
      intro _
      simp [insertByConf, List.filter_cons, List.filter_nil]
  | cons x xs ih =>
      intro hs
      obtain ⟨hx, hxs⟩ := List.pairwise_cons.mp hs
      rw [insertByConf]
      split
      · next hlt =>
          have hall : ∀ y ∈ (x :: xs).filter q, y.confidence < r.confidence := by
            intro y hy
            have hy' := List.mem_of_mem_filter hy
            rcases List.mem_cons.mp hy' with rfl | hy''
            · exact hlt
            · exact lt_of_le_of_lt (hx y hy'') hlt
          by_cases hqr : q r = true
          · rw [List.filter_cons_of_pos (l := x :: xs) hqr, if_pos hqr,
              insertByConf_front hall]
          · rw [List.filter_cons_of_neg (l := x :: xs) hqr, if_neg hqr]
      · next hge =>
          by_cases hqx : q x = true
          · rw [List.filter_cons_of_pos (l := insertByConf r xs) hqx,
              List.filter_cons_of_pos (l := xs) hqx, ih hxs]
            by_cases hqr : q r = true
            · rw [if_pos hqr, if_pos hqr, insertByConf, if_neg hge]
            · rw [if_neg hqr, if_neg hqr]
          · rw [List.filter_cons_of_neg (l := insertByConf r xs) hqx,
              List.filter_cons_of_neg (l := xs) hqx, ih hxs]

theorem filter_sortByConfDesc {q : Region → Bool} :
    ∀ l : List Region,
      (sortByConfDesc l).filter q = sortByConfDesc (l.filter q) := by
  intro l
  induction l with
  | nil => rfl
  | cons x xs ih =>
      rw [sortByConfDesc, filter_insertByConf (sortByConfDesc_sorted xs),
        List.filter_cons]
      split
      · next hqx => rw [sortByConfDesc, ih]
      · next hqx => rw [ih]


theorem keepsRegion_filter {thr : ℚ} {p : Nat} {r : Region}
    (hr : r.page_number = p) :
    ∀ kept : List Region,
      keepsRegion thr (kept.filter fun k => k.page_number = p) r =
        keepsRegion thr kept r := by
  intro kept
  induction kept with
  | nil => rfl
  | cons k ks ih =>
      by_cases hk : k.page_number = p
      · rw [List.filter_cons_of_pos (by simpa using hk)]
        simp only [keepsRegion, List.all_cons] at ih ⊢
        rw [ih]
      · rw [List.filter_cons_of_neg (by simpa using hk)]
        simp only [keepsRegion, List.all_cons] at ih ⊢
        have hne : (decide (k.page_number ≠ r.page_number) ||
            decide (iou r.bounding_box k.bounding_box < thr)) = true := by
          simp only [Bool.or_eq_true, decide_eq_true_eq]
          exact Or.inl (by rw [hr]; exact hk)
        rw [ih, hne, Bool.true_and]

theorem dedupGo_filter {thr : ℚ} {p : Nat} :
    ∀ (l kept : List Region),
      (dedupGo thr kept l).filter (fun r => r.page_number = p) =
        dedupGo thr (kept.filter fun k => k.page_number = p)
          (l.filter fun r => r.page_number = p) := by
  intro l
  induction l with
  | nil => intro kept; rfl
  | cons r rest ih =>
      intro kept
      by_cases hp : r.page_number = p
      · rw [List.filter_cons_of_pos (by simpa using hp)]
        by_cases hkeep : keepsRegion thr kept r = true
        · rw [dedupGo, if_pos hkeep, dedupGo,
            if_pos (by rw [keepsRegion_filter hp]; exact hkeep),
            List.filter_cons_of_pos (by simpa using hp), ih (r :: kept),
            List.filter_cons_of_pos (by simpa using hp)]
        · rw [dedupGo, if_neg hkeep, dedupGo,
            if_neg (by rw [keepsRegion_filter hp]; exact hkeep), ih kept]
      · rw [List.filter_cons_of_neg (by simpa using hp)]
        by_cases hkeep : keepsRegion thr kept r = true
        · rw [dedupGo, if_pos hkeep,
            List.filter_cons_of_neg (by simpa using hp), ih (r :: kept),
            List.filter_cons_of_neg (by simpa using hp)]
        · rw [dedupGo, if_neg hkeep, ih kept]

theorem deduplicate_filter_page (regions : List Region) (thr : ℚ) (p : Nat) :
    (deduplicate regions thr).filter (fun r => r.page_number = p) =
      deduplicate (regions.filter fun r => r.page_number = p) thr := by
  unfold deduplicate
  rw [dedupGo_filter, filter_sortByConfDesc]
  rfl

theorem perm_partition_key :
    ∀ (K : List Nat) (l : List Region), K.Nodup →
      (∀ r ∈ l, r.page_number ∈ K) →
      l.Perm (K.flatMap fun p => l.filter fun r => r.page_number = p) := by
  intro K
  induction K with
  | nil =>
      intro l _ hmem
      cases l with
      | nil => exact List.Perm.refl _
      | cons r rs => exact absurd (hmem r (List.mem_cons_self r rs)) (List.not_mem_nil _)
  | cons p K' ih =>
      intro l hnd hmem
      obtain ⟨hp, hnd'⟩ := List.nodup_cons.mp hnd
      have hstep :
          (List.filter (fun r => decide (r.page_number = p)) l ++
            List.filter (fun r => !decide (r.page_number = p)) l).Perm l :=
        List.filter_append_perm _ l
      have hIH : (l.filter fun r => !decide (r.page_number = p)).Perm
          (K'.flatMap fun q =>
            (l.filter fun r => !decide (r.page_number = p)).filter
              fun r => r.page_number = q) := by
        apply ih _ hnd'
        intro r hrmem
        have h1 := List.mem_of_mem_filter hrmem
        have h2 : ¬r.page_number = p := by
          have := List.of_mem_filter hrmem
          simpa using this
        rcases List.mem_cons.mp (hmem r h1) with h | h
        · exact absurd h h2
        · exact h
      have hsimp : ∀ q ∈ K',
          ((l.filter fun r => !decide (r.page_number = p)).filter
            fun r => r.page_number = q) =
            l.filter fun r => r.page_number = q := by
        intro q hq
        rw [List.filter_filter]
        apply List.filter_congr
        intro r _
        by_cases h : r.page_number = q
        · have hqp : ¬q = p := fun hqp => hp (hqp ▸ hq)
          simp [h, hqp]
        · simp [h]
      have hflat :
          (K'.flatMap fun q =>
            (l.filter fun r => !decide (r.page_number = p)).filter
              fun r => r.page_number = q) =
            K'.flatMap fun q => l.filter fun r => r.page_number = q := by
        rw [List.flatMap_def, List.flatMap_def]
        congr 1
        exact List.map_congr_left hsimp
      have hfinal : (List.filter (fun r => decide (r.page_number = p)) l ++
          List.filter (fun r => !decide (r.page_number = p)) l).Perm
          ((l.filter fun r => r.page_number = p) ++
            K'.flatMap fun q => l.filter fun r => r.page_number = q) := by
        apply List.Perm.append_left
        exact hflat ▸ hIH
      rw [List.flatMap_cons]
      exact hstep.symm.trans hfinal


/-- C8: deduplication is page-local — restricting the output to one page
equals deduplicating that page's regions alone, and the whole output is
a permutation of the per-page deduplications concatenated over the
distinct pages of the input. -/
theorem deduplicate_page_local :
    (∀ (regions : List Region) (thr : ℚ) (p : Nat),
      (deduplicate regions thr).filter (fun r => r.page_number = p) =
        deduplicate (regions.filter fun r => r.page_number = p) thr) ∧
    (∀ (regions : List Region) (thr : ℚ),
      (deduplicate regions thr).Perm
        ((regions.map Region.page_number).dedup.flatMap fun p =>
          deduplicate (regions.filter fun r => r.page_number = p) thr)) := by
  constructor
  · exact deduplicate_filter_page
  · intro regions thr
    have hmem : ∀ r ∈ deduplicate regions thr,
        r.page_number ∈ (regions.map Region.page_number).dedup := by
      intro r hr
      rw [List.mem_dedup]
      exact List.mem_map_of_mem Region.page_number
        (mem_sortByConfDesc.mp (dedupGo_subset _ _ r hr))
    have hperm := perm_partition_key (regions.map Region.page_number).dedup
      (deduplicate regions thr) (List.nodup_dedup _) hmem
    have heq : ((regions.map Region.page_number).dedup.flatMap fun p =>
        (deduplicate regions thr).filter fun r => r.page_number = p) =
        (regions.map Region.page_number).dedup.flatMap fun p =>
          deduplicate (regions.filter fun r => r.page_number = p) thr := by
      rw [List.flatMap_def, List.flatMap_def]
      congr 1
      exact List.map_congr_left fun p _ => deduplicate_filter_page regions thr p
    exact hperm.trans (heq ▸ List.Perm.refl _)

/-! ### Confidence clamping, bounding boxes, language detection -/


/-- C4: region construction stores `clamp(c, 0.0, 1.0)` as the
confidence, so every constructed region satisfies
`confidence ∈ [0, 1]`. -/
theorem region_confidence_clamped :
    ∀ (t : String) (c : ℚ) (bb : Option Box) (lang : Language) (page : Nat),
      (mkRegion t c bb lang page).confidence = max 0 (min 1 c) ∧
      0 ≤ (mkRegion t c bb lang page).confidence ∧
      (mkRegion t c bb lang page).confidence ≤ 1 := by
  intro t c bb lang page
  refine ⟨rfl, le_max_left 0 _, ?_⟩
  exact max_le zero_le_one (min_le_left 1 c)

theorem foldl_min_le_init : ∀ (l : List ℚ) (a : ℚ), l.foldl min a ≤ a := by
  intro l
  induction l with
  | nil => intro a; exact le_refl a
  | cons x xs ih =>
      intro a
      exact le_trans (ih (min a x)) (min_le_left a x)

theorem foldl_min_le_mem :
    ∀ (l : List ℚ) (a x : ℚ), x ∈ l → l.foldl min a ≤ x := by
  intro l
  induction l with
  | nil => intro a x hx; exact absurd hx (List.not_mem_nil x)
  | cons y ys ih =>
      intro a x hx
      rcases List.mem_cons.mp hx with rfl | hx'
      · exact le_trans (foldl_min_le_init ys (min a x)) (min_le_right a x)
      · exact ih (min a y) x hx'

theorem le_foldl_max_init : ∀ (l : List ℚ) (a : ℚ), a ≤ l.foldl max a := by
  intro l
  induction l with
  | nil => intro a; exact le_refl a
  | cons x xs ih =>
      intro a
      exact le_trans (le_max_left a x) (ih (max a x))

theorem le_foldl_max_mem :
    ∀ (l : List ℚ) (a x : ℚ), x ∈ l → x ≤ l.foldl max a := by
  intro l
  induction l with
  | nil => intro a x hx; exact absurd hx (List.not_mem_nil x)
  | cons y ys ih =>
      intro a x hx
      rcases List.mem_cons.mp hx with rfl | hx'
      · exact le_trans (le_max_right a x) (le_foldl_max_init ys (max a x))
      · exact ih (max a y) x hx'

/-- C3: `normalize_bbox` returns the axis-aligned bounding rectangle of
the polygon — positive width and height, enclosing every vertex — and
`null` for a degenerate polygon; `[(0,0),(10,0),(10,5),(0,5)]`
normalises to `(0,0,10,5)` and the collapsed polygon `[(5,5)] * 4`
normalises to `null`. -/
theorem normalize_bbox_spec :
    (∀ poly : List (ℚ × ℚ), 4 ≤ poly.length →
      ∀ b : Box, normalize_bbox poly = some b →
        0 < b.w ∧ 0 < b.h ∧
        ∀ q ∈ poly, b.x ≤ q.1 ∧ q.1 ≤ b.x + b.w ∧
          b.y ≤ q.2 ∧ q.2 ≤ b.y + b.h) ∧
    normalize_bbox [(0, 0), (10, 0), (10, 5), (0, 5)] =
      some ⟨0, 0, 10, 5⟩ ∧
    normalize_bbox [(5, 5), (5, 5), (5, 5), (5, 5)] = none := by
  refine ⟨?_, ?_, ?_⟩
  · intro poly _ b hb
    cases poly with
    | nil => simp [normalize_bbox] at hb
    | cons p ps =>
        simp only [normalize_bbox] at hb
        split at hb
        · exact absurd hb (by simp)
        · next hcond =>
            push_neg at hcond
            obtain ⟨hw, hh⟩ := hcond
            obtain ⟨bx, yy, bw, bh⟩ := b
            simp only [Option.some.injEq, Box.mk.injEq] at hb
            obtain ⟨hbx, hby, hbw, hbh⟩ := hb
            subst hbx
            subst hby
            subst hbw
            subst hbh
            dsimp only
            have hxle : ((p :: ps).map Prod.fst).foldl min p.1 ≤
                ((p :: ps).map Prod.fst).foldl max p.1 :=
              le_trans (foldl_min_le_init _ p.1) (le_foldl_max_init _ p.1)
            have hyle : ((p :: ps).map Prod.snd).foldl min p.2 ≤
                ((p :: ps).map Prod.snd).foldl max p.2 :=
              le_trans (foldl_min_le_init _ p.2) (le_foldl_max_init _ p.2)
            refine ⟨?_, ?_, ?_⟩
            · rcases lt_or_eq_of_le hxle with h | h
              · linarith
              · exact absurd (by linarith) hw
            · rcases lt_or_eq_of_le hyle with h | h
              · linarith
              · exact absurd (by linarith) hh
            · intro q hq
              have hq1 : q.1 ∈ (p :: ps).map Prod.fst :=
                List.mem_map_of_mem Prod.fst hq
              have hq2 : q.2 ∈ (p :: ps).map Prod.snd :=
                List.mem_map_of_mem Prod.snd hq
              have h1 := foldl_min_le_mem _ p.1 q.1 hq1
              have h2 := le_foldl_max_mem _ p.1 q.1 hq1
              have h3 := foldl_min_le_mem _ p.2 q.2 hq2
              have h4 := le_foldl_max_mem _ p.2 q.2 hq2
              exact ⟨h1, by linarith, h3, by linarith⟩
  · norm_num [normalize_bbox, min_def, max_def]
  · norm_num [normalize_bbox, min_def, max_def]


/-- Witness for `normalize_bbox_spec` at the concrete rectangle. -/
theorem normalize_bbox_spec_witness :
    0 < (Box.mk 0 0 10 5).w ∧
    (Box.mk 0 0 10 5).x ≤ ((10 : ℚ), (5 : ℚ)).1 := by
  have H := normalize_bbox_spec.1 [(0, 0), (10, 0), (10, 5), (0, 5)]
    (by decide) ⟨0, 0, 10, 5⟩ normalize_bbox_spec.2.1
  exact ⟨H.1, (H.2.2 (10, 5)
    (List.Mem.tail _ (List.Mem.tail _ (List.Mem.head _)))).1⟩

/-- C6: language detection tallies characters per script family and
returns a family of maximal count (`none` exactly when no character
matches any family); `"Hello World"` detects English, `"مرحبا"` detects
Arabic, `"123 !!!"` detects nothing and falls back to the configured
default. -/
theorem detect_primary_spec :
    (∀ (s : List Char) (l : Language), detect_primary s = some l →
      ∀ l', countFamily s l' ≤ countFamily s l) ∧
    (∀ s : List Char, detect_primary s = none ↔
      ∀ l, countFamily s l = 0) ∧
    detect_primary "Hello World".data = some Language.english ∧
    detect_primary "مرحبا".data = some Language.arabic ∧
    detect_primary "123 !!!".data = none := by
  refine ⟨?_, ?_, by decide, by decide, by decide⟩
  · intro s l h l'
    simp only [detect_primary] at h
    split at h
    · next hc =>
        obtain rfl : Language.english = l := by simpa using h
        cases l' <;> first | exact le_refl _ | omega
    · split at h
      · next hc1 hc2 =>
          obtain rfl : Language.arabic = l := by simpa using h
          cases l' <;> first | exact le_refl _ | omega
      · split at h
        · next hc1 hc2 hc3 =>
            obtain rfl : Language.tamil = l := by simpa using h
            cases l' <;> first | exact le_refl _ | omega
        · split at h
          · next hc1 hc2 hc3 hc4 =>
              obtain rfl : Language.hindi = l := by simpa using h
              cases l' <;> first | exact le_refl _ | omega
          · exact absurd h (by simp)
  · intro s
    constructor
    · intro h
      simp only [detect_primary] at h
      split at h
      · exact absurd h (by simp)
      · split at h
        · exact absurd h (by simp)
        · split at h
          · exact absurd h (by simp)
          · split at h
            · exact absurd h (by simp)
            · next hc1 hc2 hc3 hc4 =>
                intro l
                cases l <;> omega
    · intro h
      have he := h Language.english
      have ha := h Language.arabic
      have ht := h Language.tamil
      have hh := h Language.hindi
      simp only [detect_primary, he, ha, ht, hh]
      rw [if_neg (by omega), if_neg (by omega), if_neg (by omega),
        if_neg (by omega)]

/-- Witness for `detect_primary_spec`: on `"Hello World"` the English
count dominates the Arabic count. -/
theorem detect_primary_spec_witness :
    countFamily "Hello World".data Language.arabic ≤
      countFamily "Hello World".data Language.english :=
  detect_primary_spec.1 "Hello World".data Language.english
    detect_primary_spec.2.2.1 Language.arabic

/-! ### Engine cache and the extraction pipeline -/


/-- Modelled from the spec: the `performance_profile` presets. -/
inductive Profile where
  | fast
  | balanced
  | accurate
deriving DecidableEq

/-- Modelled from the spec: `EngineConfigKey`, the cache key of a loaded
OCR engine instance. -/
structure EngineConfigKey where
  language : Language
  performance_profile : Profile
  use_gpu : Bool
deriving DecidableEq

/-- Modelled from the spec: the process-wide engine-instance cache.
Instances are opaque and represented by distinct numeric ids; `nextId`
is the id the next construction will take, and `constructions` counts
engine constructions (the injected construction counter the spec's test
observes). -/
structure EngineCache where
  entries : List (EngineConfigKey × Nat)
  nextId : Nat
  constructions : Nat
deriving DecidableEq

/-- Look up the cached instance for a key. -/
def lookupEngine (c : EngineCache) (k : EngineConfigKey) : Option Nat :=
  (c.entries.find? fun e => e.1 = k).map Prod.snd

/-- Modelled from the spec: obtain the cached engine instance for a key,
constructing and caching it when absent (the check-then-create sequence
of `_get_ocr_engine`). -/
def getEngine (c : EngineCache) (k : EngineConfigKey) : Nat × EngineCache :=
  match lookupEngine c k with
  | some i => (i, c)
  | none =>
      (c.nextId,
        ⟨(k, c.nextId) :: c.entries, c.nextId + 1, c.constructions + 1⟩)

/-- Modelled from the spec: `OCRPipeline.clear_cache` drops all cached
engine instances; subsequent invocations re-create them lazily. -/
def clear_cache (c : EngineCache) : EngineCache :=
  { c with entries := [] }

/-- At most one entry per key, and every cached id was allocated below
`nextId`. -/
def WFCache (c : EngineCache) : Prop :=
  (c.entries.map Prod.fst).Nodup ∧ ∀ e ∈ c.entries, e.2 < c.nextId

/-- Modelled from the spec: the options `extract` recognises that the
claims exercise (single-language path; preprocessing operates on images,
which are outside the embedding). -/
structure OCRConfig where
  default_language : Language
  confidence_threshold : ℚ
  performance_profile : Profile
  use_gpu : Bool

/-- The engine-configuration key an invocation uses. -/
def engineKey (o : OCRConfig) : EngineConfigKey :=
  ⟨o.default_language, o.performance_profile, o.use_gpu⟩

/-- A raw per-page engine result after parsing: `(text, score, bbox)`
tuples in emission order.  The engine itself is a black box, so its
output is part of the input. -/
abbrev RawPage := List (String × ℚ × Option Box)

/-- Modelled from the spec: the decoded input document — `invalid` for
input that fails validation/decoding, otherwise the rendered pages with
their engine results. -/
inductive DocInput where
  | invalid
  | pages (ps : List RawPage)

/-- Modelled from the spec: the fatal error taxonomy — only these two
may terminate `extract` without a result. -/
inductive ExtractError where
  | inputError (msg : String)
  | configError (msg : String)
deriving DecidableEq

/-- Modelled from the spec: the `ExtractionResult`/metadata fields the
claims exercise (`document_id` and wall-clock time are not modelled). -/
structure ExtractionResult where
  extracted_text : List Region
  overall_confidence : ℚ
  language_detected : Language
  filtered_low_confidence_count : Nat
  total_text_regions : Nat
  warnings : List String
deriving DecidableEq

/-- Regions of one raw page: constructed via `mkRegion` (clamping) and
tagged with the page number; empty-text degenerate regions are dropped
before aggregation. -/
def pageRegions (o : OCRConfig) (pno : Nat) (raw : RawPage) : List Region :=
  (raw.map fun t => mkRegion t.1 t.2.1 t.2.2 o.default_language pno).filter
    fun r => r.text ≠ ""

/-- All regions of the document, page numbers 1-based. -/
def collectRegions (o : OCRConfig) (ps : List RawPage) : List Region :=
  (ps.enum.map fun pr => pageRegions o (pr.1 + 1) pr.2).flatten

/-- Regions surviving the confidence-threshold filter (the threshold is
clamped to `[0,1]` like every stored confidence). -/
def survivors (o : OCRConfig) (ps : List RawPage) : List Region :=
  (collectRegions o ps).filter fun r =>
    clamp01 o.confidence_threshold ≤ r.confidence

/-- Arithmetic mean of a list of rationals. -/
def mean (qs : List ℚ) : ℚ := qs.sum / qs.length

/-- The engine cache after one `extract` call: one engine acquisition
per page under the invocation's key (spec step 5). -/
def engineCacheAfter (cache : EngineCache) (ps : List RawPage)
    (o : OCRConfig) : EngineCache :=
  ps.foldl (fun c _ => (getEngine c (engineKey o)).2) cache

/-- Modelled from the spec: `extract` — validate, acquire the cached
engine per page, aggregate the parsed regions, filter by confidence,
compute the mean confidence (`0` when none survive) and the advisory
warnings, and return the result together with the updated cache. -/
def extract (cache : EngineCache) (inp : DocInput) (o : OCRConfig) :
    Except ExtractError (ExtractionResult × EngineCache) :=
  match inp with
  | .invalid =>
      .error (.inputError "input missing, unreadable, or unsupported format")
  | .pages ps =>
      let surv := survivors o ps
      let total := (collectRegions o ps).length
      let overall : ℚ :=
        if surv.isEmpty then 0 else mean (surv.map Region.confidence)
      let warns :=
        (if overall < 1/2 then
          ["very low confidence - document may be unreadable"]
         else if overall < 7/10 then
          ["low confidence - verify extracted text"]
         else []) ++
        (if surv.isEmpty then
          ["no text extracted above confidence threshold"] else [])
      .ok
        ({ extracted_text := surv, overall_confidence := overall,
           language_detected := o.default_language,
           filtered_low_confidence_count := total - surv.length,
           total_text_regions := total, warnings := warns },
         engineCacheAfter cache ps o)

/-- The cache carried out of an `extract` call (the input cache when the
call failed before any engine work). -/
def resultCache (r : Except ExtractError (ExtractionResult × EngineCache))
    (dflt : EngineCache) : EngineCache :=
  match r with
  | .ok p => p.2
  | .error _ => dflt


theorem getEngine_cached {c : EngineCache} {k : EngineConfigKey} {i : Nat}
    (h : lookupEngine c k = some i) : getEngine c k = (i, c) := by
  unfold getEngine
  rw [h]

theorem getEngine_fresh {c : EngineCache} {k : EngineConfigKey}
    (h : lookupEngine c k = none) :
    getEngine c k =
      (c.nextId,
        ⟨(k, c.nextId) :: c.entries, c.nextId + 1, c.constructions + 1⟩) := by
  unfold getEngine
  rw [h]

theorem lookup_getEngine_self (c : EngineCache) (k : EngineConfigKey) :
    lookupEngine (getEngine c k).2 k = some (getEngine c k).1 := by
  cases h : lookupEngine c k with
  | some i => rw [getEngine_cached h]; exact h
  | none =>
      rw [getEngine_fresh h]
      simp [lookupEngine, List.find?]

theorem lookup_getEngine_other {c : EngineCache} {k k' : EngineConfigKey}
    (hne : k' ≠ k) :
    lookupEngine (getEngine c k).2 k' = lookupEngine c k' := by
  cases h : lookupEngine c k with
  | some i => rw [getEngine_cached h]
  | none =>
      rw [getEngine_fresh h]
      simp only [lookupEngine, List.find?]
      rw [show (decide ((k, c.nextId).1 = k')) = false by simpa using (Ne.symm hne)]

theorem engineCacheAfter_present :
    ∀ (ps : List RawPage) (cache : EngineCache) (o : OCRConfig),
      lookupEngine cache (engineKey o) ≠ none →
      engineCacheAfter cache ps o = cache := by
  intro ps
  induction ps with
  | nil => intro cache o _; rfl
  | cons x rest ih =>
      intro cache o h
      cases hl : lookupEngine cache (engineKey o) with
      | none => exact absurd hl h
      | some i =>
          show engineCacheAfter (getEngine cache (engineKey o)).2 rest o = cache
          rw [getEngine_cached hl]
          exact ih cache o h

theorem engineCacheAfter_absent {cache : EngineCache} {o : OCRConfig}
    {x : RawPage} {rest : List RawPage}
    (h : lookupEngine cache (engineKey o) = none) :
    engineCacheAfter cache (x :: rest) o =
      (getEngine cache (engineKey o)).2 := by
  show engineCacheAfter (getEngine cache (engineKey o)).2 rest o = _
  apply engineCacheAfter_present
  rw [lookup_getEngine_self]
  simp

theorem resultCache_extract (cache : EngineCache) (ps : List RawPage)
    (o : OCRConfig) :
    resultCache (extract cache (.pages ps) o) cache =
      engineCacheAfter cache ps o := rfl


/-- C2: on a decodable document whose extraction yields zero regions at
or above the confidence threshold, `extract` still returns a result —
with `overall_confidence = 0` and a "no text extracted" warning — and
the only errors that can ever terminate `extract` without a result are
`InputError` and `ConfigurationError`. -/
theorem extract_zero_survivors :
    (∀ (cache : EngineCache) (ps : List RawPage) (o : OCRConfig),
      survivors o ps = [] →
      ∃ res cache', extract cache (.pages ps) o = .ok (res, cache') ∧
        res.overall_confidence = 0 ∧
        "no text extracted above confidence threshold" ∈ res.warnings) ∧
    (∀ (cache : EngineCache) (inp : DocInput) (o : OCRConfig)
        (e : ExtractError), extract cache inp o = .error e →
      (∃ m, e = .inputError m) ∨ ∃ m, e = .configError m) := by
  constructor
  · intro cache ps o hz
    simp only [extract, hz, List.isEmpty_nil, if_true]
    refine ⟨_, _, rfl, rfl, ?_⟩
    exact List.mem_append_right _ (List.mem_singleton.mpr rfl)
  · intro cache inp o e _
    cases e with
    | inputError m => exact Or.inl ⟨m, rfl⟩
    | configError m => exact Or.inr ⟨m, rfl⟩

def cache0 : EngineCache := ⟨[], 0, 0⟩

def cfgBasic : OCRConfig := ⟨.english, 4/5, .balanced, false⟩

def cfgGpu : OCRConfig := ⟨.english, 4/5, .balanced, true⟩

/-- Witness for `extract_zero_survivors` at a concrete empty document
and at an invalid input. -/
theorem extract_zero_survivors_witness :
    (∃ res cache',
      extract cache0 (.pages [[]]) cfgBasic = .ok (res, cache') ∧
      res.overall_confidence = 0 ∧
      "no text extracted above confidence threshold" ∈ res.warnings) ∧
    ((∃ m, ExtractError.inputError
        "input missing, unreadable, or unsupported format" =
          .inputError m) ∨
      ∃ m, ExtractError.inputError
        "input missing, unreadable, or unsupported format" =
          .configError m) :=
  ⟨extract_zero_survivors.1 cache0 [[]] cfgBasic rfl,
   extract_zero_survivors.2 cache0 .invalid cfgBasic _ rfl⟩

/-- C5: two sequential `extract` calls with an identical
`EngineConfigKey` construct exactly one engine (the second call leaves
the cache untouched, reusing the instance); a further call under a
different key performs a second, independent construction with a
distinct instance; `getEngine` preserves the at-most-one-entry-per-key
invariant, and `clear_cache` empties the cache. -/
theorem engine_cache_spec :
    (∀ (cache : EngineCache) (ps : List RawPage) (o : OCRConfig),
      ps ≠ [] → lookupEngine cache (engineKey o) = none →
      (resultCache (extract cache (.pages ps) o) cache).constructions =
          cache.constructions + 1 ∧
      resultCache
          (extract (resultCache (extract cache (.pages ps) o) cache)
            (.pages ps) o)
          (resultCache (extract cache (.pages ps) o) cache) =
        resultCache (extract cache (.pages ps) o) cache) ∧
    (∀ (cache : EngineCache) (ps : List RawPage) (o o' : OCRConfig),
      ps ≠ [] → lookupEngine cache (engineKey o) = none →
      lookupEngine cache (engineKey o') = none →
      engineKey o' ≠ engineKey o →
      (resultCache
          (extract (resultCache (extract cache (.pages ps) o) cache)
            (.pages ps) o')
          (resultCache (extract cache (.pages ps) o) cache)).constructions =
        cache.constructions + 2) ∧
    (∀ (c : EngineCache) (k k' : EngineConfigKey),
      lookupEngine c k = none → lookupEngine c k' = none → k' ≠ k →
      (getEngine (getEngine c k).2 k').1 ≠ (getEngine c k).1) ∧
    (∀ (c : EngineCache) (k : EngineConfigKey),
      WFCache c → WFCache (getEngine c k).2) ∧
    (∀ (c : EngineCache) (k : EngineConfigKey),
      lookupEngine (clear_cache c) k = none) := by
  refine ⟨?_, ?_, ?_, ?_, ?_⟩
  · intro cache ps o hne h
    obtain ⟨x, rest, rfl⟩ : ∃ x rest, ps = x :: rest := by
      cases ps with
      | nil => exact absurd rfl hne
      | cons x rest => exact ⟨x, rest, rfl⟩
    rw [resultCache_extract, engineCacheAfter_absent h]
    constructor
    · rw [getEngine_fresh h]
    · rw [resultCache_extract]
      apply engineCacheAfter_present
      rw [lookup_getEngine_self]
      simp
  · intro cache ps o o' hne h h' hkne
    obtain ⟨x, rest, rfl⟩ : ∃ x rest, ps = x :: rest := by
      cases ps with
      | nil => exact absurd rfl hne
      | cons x rest => exact ⟨x, rest, rfl⟩
    rw [resultCache_extract, resultCache_extract, engineCacheAfter_absent h]
    have hl' : lookupEngine (getEngine cache (engineKey o)).2 (engineKey o') =
        none := by
      rw [lookup_getEngine_other hkne, h']
    rw [engineCacheAfter_absent hl', getEngine_fresh hl', getEngine_fresh h]
  · intro c k k' hk hk' hne
    have hl' : lookupEngine (getEngine c k).2 k' = none := by
      rw [lookup_getEngine_other hne, hk']
    have h1 : (getEngine c k).1 = c.nextId := by rw [getEngine_fresh hk]
    have h2 : (getEngine (getEngine c k).2 k').1 =
        (getEngine c k).2.nextId := by rw [getEngine_fresh hl']
    have h3 : (getEngine c k).2.nextId = c.nextId + 1 := by
      rw [getEngine_fresh hk]
    rw [h1, h2, h3]
    omega
  · intro c k hwf
    obtain ⟨hnd, hids⟩ := hwf
    cases hl : lookupEngine c k with
    | some i => rw [getEngine_cached hl]; exact ⟨hnd, hids⟩
    | none =>
        rw [getEngine_fresh hl]
        have hfind : c.entries.find? (fun e => e.1 = k) = none := by
          have := hl
          unfold lookupEngine at this
          exact Option.map_eq_none'.mp this
        have hnotin : ∀ e ∈ c.entries, ¬(e.1 = k) := by
          intro e he
          have := List.find?_eq_none.mp hfind e he
          simpa using this
        constructor
        · refine List.nodup_cons.mpr ⟨?_, hnd⟩
          intro hmem
          rcases List.mem_map.mp hmem with ⟨e, he, heq⟩
          exact hnotin e he heq
        · intro e he
          rcases List.mem_cons.mp he with rfl | he'
          · exact Nat.lt_succ_self _
          · exact Nat.lt_trans (hids e he') (Nat.lt_succ_self _)
  · intro c k
    rfl

/-- Witness for `engine_cache_spec` at the empty cache with concrete
CPU/GPU configurations. -/
theorem engine_cache_spec_witness :
    ((resultCache (extract cache0 (.pages [[]]) cfgBasic)
          cache0).constructions = cache0.constructions + 1 ∧
      resultCache
          (extract (resultCache (extract cache0 (.pages [[]]) cfgBasic)
              cache0) (.pages [[]]) cfgBasic)
          (resultCache (extract cache0 (.pages [[]]) cfgBasic) cache0) =
        resultCache (extract cache0 (.pages [[]]) cfgBasic) cache0) ∧
    ((resultCache
        (extract (resultCache (extract cache0 (.pages [[]]) cfgBasic)
            cache0) (.pages [[]]) cfgGpu)
        (resultCache (extract cache0 (.pages [[]]) cfgBasic)
          cache0)).constructions = cache0.constructions + 2) ∧
    (getEngine (getEngine cache0 (engineKey cfgBasic)).2
        (engineKey cfgGpu)).1 ≠
      (getEngine cache0 (engineKey cfgBasic)).1 ∧
    WFCache (getEngine cache0 (engineKey cfgBasic)).2 ∧
    lookupEngine (clear_cache cache0) (engineKey cfgBasic) = none :=
  ⟨engine_cache_spec.1 cache0 [[]] cfgBasic (by decide) rfl,
   engine_cache_spec.2.1 cache0 [[]] cfgBasic cfgGpu (by decide) rfl rfl
     (by decide),
   engine_cache_spec.2.2.1 cache0 (engineKey cfgBasic) (engineKey cfgGpu)
     rfl rfl (by decide),
   engine_cache_spec.2.2.2.1 cache0 (engineKey cfgBasic)
     ⟨List.nodup_nil, fun e he => absurd he (List.not_mem_nil e)⟩,
   engine_cache_spec.2.2.2.2 cache0 (engineKey cfgBasic)⟩

end Rosetta
